import Mathlib

/-!
# Verification of the extension-groups state machine

Shallow embedding of `src/extension.ts` of the `extension-groups-for-vs-code`
repository. Groups hold ordered member lists of extension-identifier strings;
commands mutate a persisted `ExtensionGroupsState`; a tree projection derives
an "Uncategorized" bucket from the state plus the host's extension inventory.

Each definition mirrors one function or command handler of the source.
Host-supplied data (input boxes, timestamps, the extension inventory, the
result of host enable/disable requests, file contents) appears as explicit
parameters. Fallible paths return `Option`/`Except`.
-/

/-- Mirrors `interface ExtensionGroup` (`src/extension.ts:6-11`). -/
structure ExtensionGroup where
  id : String
  name : String
  extensions : List String
  isActive : Bool
deriving DecidableEq, Repr

/-- Mirrors `interface ExtensionGroupsState` (`src/extension.ts:13-16`). -/
structure ExtensionGroupsState where
  groups : List ExtensionGroup
  lastSyncTime : Option Nat
deriving DecidableEq, Repr

/-- Initial state: `context.globalState.get('extensionGroups') || { groups: [] }`
on a fresh installation (`src/extension.ts:22-24`). -/
def emptyState : ExtensionGroupsState := ⟨[], none⟩

/-- Model of JavaScript `String.prototype.startsWith`, written over character
lists so that it evaluates inside the kernel. -/
def strStartsWith (s p : String) : Bool := p.data.isPrefixOf s.data

/-- The ids of the groups of a state, in display order. -/
def groupIds (st : ExtensionGroupsState) : List String := st.groups.map (·.id)

/-- Apply `f` to the first group whose id is `gid`, leaving the rest unchanged.
This is how every `state.groups.find(g => g.id === gid)` followed by a mutation
of the found object acts on the array: only the first match is affected. -/
def modifyGroups (gid : String) (f : ExtensionGroup → ExtensionGroup) :
    List ExtensionGroup → List ExtensionGroup
  | [] => []
  | g :: gs => if g.id == gid then f g :: gs else g :: modifyGroups gid f gs

/-- Lift `modifyGroups` to whole states. -/
def modifyGroup (gid : String) (f : ExtensionGroup → ExtensionGroup)
    (st : ExtensionGroupsState) : ExtensionGroupsState :=
  { st with groups := modifyGroups gid f st.groups }

/-- The `extension-groups.createGroup` command (`src/extension.ts:44-65`).
`nameInput` is the result of `showInputBox` (`none` = dismissed); the guard is
the JavaScript truthiness test `if (groupName)`, so the empty string is also a
no-op. `now` is `Date.now()`; the new id is `Date.now().toString()`. -/
def createGroup (nameInput : Option String) (now : Nat)
    (st : ExtensionGroupsState) : ExtensionGroupsState :=
  match nameInput with
  | none => st
  | some groupName =>
    if groupName == "" then st
    else { st with groups := st.groups ++ [⟨toString now, groupName, [], false⟩] }

/-- The confirmed branch of `extension-groups.deleteGroup`
(`src/extension.ts:76-79`): `state.groups.filter(g => g.id !== group.groupId)`. -/
def deleteGroup (gid : String) (st : ExtensionGroupsState) : ExtensionGroupsState :=
  { st with groups := st.groups.filter (fun g => !(g.id == gid)) }

/-- The selected branch of `extension-groups.addExtension`
(`src/extension.ts:102-112`): find the target group, push the picked extension
id unless that group already contains it. Other groups are not consulted. -/
def addExtension (gid eid : String) (st : ExtensionGroupsState) : ExtensionGroupsState :=
  modifyGroup gid
    (fun g =>
      if g.extensions.contains eid then g
      else { g with extensions := g.extensions ++ [eid] }) st

/-- The `extension-groups.removeExtension` command (`src/extension.ts:116-128`):
filter the id out of the found group's members. -/
def removeExtension (gid eid : String) (st : ExtensionGroupsState) : ExtensionGroupsState :=
  modifyGroup gid
    (fun g => { g with extensions := g.extensions.filter (fun i => !(i == eid)) }) st

/-- Host-side view of one installed extension: its current active flag and
whether an `ext.activate()` request would succeed (resolve) or fail (reject). -/
structure HostExtension where
  isActive : Bool
  activateOk : Bool

/-- The host collaborator consumed by `extension-groups.activateGroup`:
`vscode.extensions.getExtension` plus the outcomes of the enable/disable
requests issued for each member id. -/
structure Host where
  getExtension : String → Option HostExtension
  disableOk : String → Bool

/-- The member loop of `extension-groups.activateGroup`
(`src/extension.ts:136-152`). A member the host does not know is skipped; an
issued `ext.activate()` or `workbench.extensions.disableExtension` request that
rejects aborts the command handler (no `try`/`catch` surrounds the loop). -/
def runGroupToggle (host : Host) (groupIsActive : Bool) : List String → Except Unit Unit
  | [] => .ok ()
  | extId :: rest =>
    match host.getExtension extId with
    | none => runGroupToggle host groupIsActive rest
    | some ext =>
      if !groupIsActive then
        if !ext.isActive then
          if ext.activateOk then runGroupToggle host groupIsActive rest else .error ()
        else runGroupToggle host groupIsActive rest
      else
        if host.disableOk extId then runGroupToggle host groupIsActive rest
        else .error ()

/-- The `extension-groups.activateGroup` command (`src/extension.ts:130-172`).
The `isActive` flip at line 154 runs only after the whole member loop has
completed without a rejected host request. An unknown group id is a no-op. -/
def activateGroup (host : Host) (gid : String)
    (st : ExtensionGroupsState) : Except Unit ExtensionGroupsState :=
  match st.groups.find? (fun g => g.id == gid) with
  | none => .ok st
  | some targetGroup =>
    match runGroupToggle host targetGroup.isActive targetGroup.extensions with
    | .error e => .error e
    | .ok _ => .ok (modifyGroup gid (fun g => { g with isActive := !g.isActive }) st)

/-- The group-reorder branch of `extension-groups.dragAndDrop`
(`src/extension.ts:204-216`): both indices are computed on the original array;
the source is spliced out and re-inserted at the original target index. -/
def reorderGroups (sourceId targetId : String)
    (st : ExtensionGroupsState) : ExtensionGroupsState :=
  let groups := st.groups
  let sourceIndex := groups.findIdx (fun g => g.id == sourceId)
  let targetIndex := groups.findIdx (fun g => g.id == targetId)
  match groups[sourceIndex]? with
  | none => st
  | some movedGroup =>
    if targetIndex < groups.length then
      { st with groups := (groups.eraseIdx sourceIndex).insertIdx targetIndex movedGroup }
    else st

/-- The two kinds of tree node, `ExtensionGroupTreeItem` and
`ExtensionTreeItem` (`src/extension.ts:500-547`), reduced to the identification
data used by drag-and-drop. -/
inductive DndNode where
  | group (groupId : String)
  | ext (extensionId groupId : String)
deriving DecidableEq, Repr

/-- Removal of an extension id from the members of the (first) group with the
given id: `sourceGroup.extensions = sourceGroup.extensions.filter(id => id !==
extensionId)`, as performed both by the move branch of the `dragAndDrop`
command (`src/extension.ts:187-190`) and by `handleDrop`
(`src/extension.ts:473-479`). -/
def removeFromSource (extensionId sourceGroupId : String)
    (st : ExtensionGroupsState) : ExtensionGroupsState :=
  modifyGroup sourceGroupId
    (fun g => { g with extensions := g.extensions.filter (fun i => !(i == extensionId)) }) st

/-- Appending an extension id to the members of the (first) group with the
given id unless already present: `if (!targetGroup.extensions.includes(id))
targetGroup.extensions.push(id)`, as performed both by the move branch of the
`dragAndDrop` command (`src/extension.ts:192-195`) and by `handleDrop`
(`src/extension.ts:481-486`). A missing target group is a no-op. -/
def addToTarget (targetGroupId extensionId : String)
    (st : ExtensionGroupsState) : ExtensionGroupsState :=
  modifyGroup targetGroupId
    (fun g =>
      if g.extensions.contains extensionId then g
      else { g with extensions := g.extensions ++ [extensionId] }) st

/-- The `extension-groups.dragAndDrop` command (`src/extension.ts:174-219`):
extension-onto-group moves the member (guarded by `sourceGroup.id !==
targetGroup.id`), group-onto-group reorders, everything else is ignored. -/
def dragAndDrop (source target : DndNode)
    (st : ExtensionGroupsState) : ExtensionGroupsState :=
  match source, target with
  | .ext extensionId sourceGroupId, .group targetGroupId =>
    match st.groups.find? (fun g => g.id == sourceGroupId),
        st.groups.find? (fun g => g.id == targetGroupId) with
    | some sourceGroup, some targetGroup =>
      if sourceGroup.id == targetGroup.id then st
      else addToTarget targetGroupId extensionId (removeFromSource extensionId sourceGroupId st)
    | _, _ => st
  | .group sourceGroupId, .group targetGroupId => reorderGroups sourceGroupId targetGroupId st
  | _, _ => st

/-- One entry of the drag payload built by `handleDrag`
(`src/extension.ts:437-440`): the dragged leaf's extension id and the group id
recorded for it at drag time. -/
structure DragItem where
  extensionId : String
  groupId : String
deriving DecidableEq, Repr

/-- The body of the `for` loop of `handleDrop` for one dragged item
(`src/extension.ts:472-487`): remove from the recorded source group, then,
unless the target is the synthetic Uncategorized id, append to the target
group when present and not already a member. -/
def dropStep (targetGroupId : String) (st : ExtensionGroupsState)
    (item : DragItem) : ExtensionGroupsState :=
  let st1 := removeFromSource item.extensionId item.groupId st
  if targetGroupId == "__uncategorized__" then st1
  else addToTarget targetGroupId item.extensionId st1

/-- The whole item loop of `handleDrop`. -/
def handleDropCore (items : List DragItem) (targetGroupId : String)
    (st : ExtensionGroupsState) : ExtensionGroupsState :=
  items.foldl (dropStep targetGroupId) st

/-- Target resolution of `handleDrop` (`src/extension.ts:463-469`): a group
header yields its own id, an extension leaf yields its containing group's id,
no target yields `undefined`. -/
def resolveTarget : Option DndNode → Option String
  | some (.group gid) => some gid
  | some (.ext _ gid) => some gid
  | none => none

/-- `ExtensionGroupsProvider.handleDrop` (`src/extension.ts:448-496`).
`payload` models the data-transfer entry: `none` when the mime type is absent,
`some (.error ())` when `JSON.parse` of the transfer string throws. `none` as
result models the early `return`s (nothing processed, nothing persisted);
`some st2` means the loop ran and `st2` was persisted. The falsy test
`if (!targetGroupId) return` also drops an empty-string id. -/
def handleDrop (payload : Option (Except Unit (List DragItem)))
    (target : Option DndNode) (st : ExtensionGroupsState) :
    Option ExtensionGroupsState :=
  match payload with
  | none => none
  | some (.error _) => none
  | some (.ok items) =>
    match resolveTarget target with
    | none => none
    | some targetGroupId =>
      if targetGroupId == "" then none
      else some (handleDropCore items targetGroupId st)

/-- `this.state.groups.flatMap(g => g.extensions)` — the set of all grouped
ids used by `getChildren` (`src/extension.ts:346,364-366`). -/
def allGrouped (st : ExtensionGroupsState) : List String :=
  st.groups.flatMap (·.extensions)

/-- The children of the synthetic Uncategorized node
(`src/extension.ts:362-390`): inventory entries whose id does not start with
`vscode.` and is claimed by no group, in inventory order. The inventory is
`vscode.extensions.all`, given here as its list of ids. -/
def uncategorizedIds (inventory : List String)
    (st : ExtensionGroupsState) : List String :=
  inventory.filter
    (fun i => !(strStartsWith i "vscode.") && !((allGrouped st).contains i))

/-- The state change of `extension-groups.syncSettings`
(`src/extension.ts:237-239`): stamp `lastSyncTime` before writing the file. -/
def syncSettings (now : Nat) (st : ExtensionGroupsState) : ExtensionGroupsState :=
  { st with lastSyncTime := some now }

/-- JSON values, the shape of everything that passes through
`JSON.stringify`/`JSON.parse` in `syncSettings` and `importSettings`. -/
inductive Json where
  | null : Json
  | bool (b : Bool) : Json
  | num (n : Nat) : Json
  | str (s : String) : Json
  | arr (elems : List Json) : Json
  | obj (fields : List (String × Json)) : Json

/-- Property access `value[key]` on a parsed object: `none` models
`undefined` (missing key or non-object receiver). -/
def lookupField : List (String × Json) → String → Option Json
  | [], _ => none
  | (k, v) :: fs, key => if k == key then some v else lookupField fs key

/-- JavaScript truthiness of a parsed JSON value, as tested by
`if (!newState ...)` in `updateProviderState` (`src/extension.ts:39`). -/
def Json.isFalsy : Json → Bool
  | .null => true
  | .bool b => !b
  | .num n => n == 0
  | .str s => s == ""
  | .arr _ => false
  | .obj _ => false

/-- `Array.isArray(newState.groups)` on a parsed value
(`src/extension.ts:39`). -/
def groupsFieldIsArray : Json → Bool
  | .obj fs =>
    match lookupField fs "groups" with
    | some (.arr _) => true
    | _ => false
  | _ => false

/-- `JSON.stringify` of one group, as a JSON tree. -/
def encodeGroup (g : ExtensionGroup) : Json :=
  .obj [("id", .str g.id), ("name", .str g.name),
    ("extensions", .arr (g.extensions.map Json.str)), ("isActive", .bool g.isActive)]

/-- `JSON.stringify(state, null, 2)` (`src/extension.ts:242`), abstracted to
the JSON tree the text denotes. `JSON.stringify` omits an `undefined`
`lastSyncTime`. -/
def encodeState (st : ExtensionGroupsState) : Json :=
  .obj ([("groups", .arr (st.groups.map encodeGroup))] ++
    (match st.lastSyncTime with
     | some t => [("lastSyncTime", Json.num t)]
     | none => []))

/-- Typed reading of a parsed members array, mirroring the field accesses the
commands perform on each `extensions` entry. -/
def decodeStrings : List Json → Option (List String)
  | [] => some []
  | .str s :: rest => (decodeStrings rest).map (fun l => s :: l)
  | _ => none

/-- Typed reading of one parsed group object. -/
def decodeGroup : Json → Option ExtensionGroup
  | .obj fs =>
    match lookupField fs "id", lookupField fs "name",
        lookupField fs "extensions", lookupField fs "isActive" with
    | some (.str i), some (.str n), some (.arr xs), some (.bool b) =>
      (decodeStrings xs).map (fun es => ⟨i, n, es, b⟩)
    | _, _, _, _ => none
  | _ => none

/-- Typed reading of a parsed groups array. -/
def decodeGroups : List Json → Option (List ExtensionGroup)
  | [] => some []
  | j :: rest =>
    match decodeGroup j with
    | none => none
    | some g => (decodeGroups rest).map (fun l => g :: l)

/-- Typed reading of a whole parsed state. The TypeScript source performs no
such decoding — `JSON.parse(data) as ExtensionGroupsState` is a cast — so this
function expresses which parsed trees behave as a well-formed state under the
field accesses the rest of the source performs. -/
def decodeState : Json → Option ExtensionGroupsState
  | .obj fs =>
    match lookupField fs "groups" with
    | some (.arr gs) =>
      (decodeGroups gs).map
        (fun groups =>
          ⟨groups,
            match lookupField fs "lastSyncTime" with
            | some (.num t) => some t
            | _ => none⟩)
    | _ => none
  | _ => none

/-- `updateProviderState` (`src/extension.ts:34-41`): re-read the persisted
value and fall back to `{ groups: [] }` when it is falsy or its `groups` field
is not an array. -/
def sanitizeState (j : Json) : Json :=
  if !j.isFalsy && groupsFieldIsArray j then j else encodeState emptyState

/-- The three user-visible outcomes of `extension-groups.importSettings`:
success notification, "No synced extension groups found", or the caught-error
message (`src/extension.ts:275-287`). -/
inductive ImportOutcome where
  | imported : ImportOutcome
  | nothingToImport : ImportOutcome
  | failed : ImportOutcome
deriving DecidableEq, Repr

/-- The mutable locations `importSettings` touches: the closure variable
`state`, the persisted `globalState` value, and the provider's state (set via
`updateProviderState`). All three are parsed/stored JSON values. -/
structure ImportEnv where
  stateVar : Json
  persisted : Json
  providerState : Json

/-- `extension-groups.importSettings` (`src/extension.ts:258-289`). `file` is
`none` when `extension-groups-sync.json` does not exist, `some (.error ())`
when reading/`JSON.parse` throws (caught at line 283), and `some (.ok j)` when
the file parses to `j`. The parsed value is assigned and persisted with no
shape validation; `updateProviderState` then sanitizes only the provider's
copy. -/
def importSettings (file : Option (Except Unit Json)) (env : ImportEnv) :
    ImportOutcome × ImportEnv :=
  match file with
  | none => (.nothingToImport, env)
  | some (.error _) => (.failed, env)
  | some (.ok j) => (.imported, ⟨j, j, sanitizeState j⟩)

/-- Modelled from the spec: the claimed Uncategorized projection, "inventory
ids minus the union of all groups' members, in inventory order", with no other
filtering. Kept separate from `uncategorizedIds` (the source translation) so
the two can be compared. -/
def specUncategorized (inventory : List String)
    (st : ExtensionGroupsState) : List String :=
  inventory.filter (fun i => !((allGrouped st).contains i))

/-- Modelled from the spec: the claimed reorder semantics, "removing the
source group and reinserting it at the index the target group occupies after
that removal". Kept separate from `reorderGroups` (the source translation) so
the two can be compared. -/
def relocateAfterRemoval (sourceId targetId : String)
    (st : ExtensionGroupsState) : ExtensionGroupsState :=
  let groups := st.groups
  let sourceIndex := groups.findIdx (fun g => g.id == sourceId)
  match groups[sourceIndex]? with
  | none => st
  | some movedGroup =>
    let rest := groups.eraseIdx sourceIndex
    let targetIndex := rest.findIdx (fun g => g.id == targetId)
    if targetIndex < rest.length then
      { st with groups := rest.insertIdx targetIndex movedGroup }
    else st

/-- Two groups claim no common extension identifier. -/
def MemberDisjoint (g1 g2 : ExtensionGroup) : Prop :=
  ∀ e, e ∈ g1.extensions → e ∉ g2.extensions

instance : DecidableRel MemberDisjoint :=
  fun _ _ => List.decidableBAll _ _

/-- The cross-group uniqueness invariant: every extension identifier occurs in
the members list of at most one group. -/
def CrossUnique (st : ExtensionGroupsState) : Prop :=
  st.groups.Pairwise MemberDisjoint

instance (st : ExtensionGroupsState) : Decidable (CrossUnique st) :=
  List.instDecidablePairwise _

/-- A drag payload entry is accurate for a state when the id it records is the
group the tree would actually have shown the leaf under: the first group whose
id matches contains the extension, or — for leaves of the synthetic
Uncategorized node and other unmatched ids — no group contains it. -/
def payloadTruthful (st : ExtensionGroupsState) (item : DragItem) : Prop :=
  match st.groups.find? (fun g => g.id == item.groupId) with
  | some g => item.extensionId ∈ g.extensions
  | none => ∀ g ∈ st.groups, item.extensionId ∉ g.extensions

instance (st : ExtensionGroupsState) (item : DragItem) :
    Decidable (payloadTruthful st item) :=
  match h : st.groups.find? (fun g => g.id == item.groupId) with
  | some g =>
    decidable_of_iff (item.extensionId ∈ g.extensions)
      (by unfold payloadTruthful; rw [h])
  | none =>
    decidable_of_iff (∀ g ∈ st.groups, item.extensionId ∉ g.extensions)
      (by unfold payloadTruthful; rw [h])

/-- States reachable from the empty state by the public operations, with
arbitrary host-supplied inputs (names, timestamps, picked ids, drag payloads,
host toggle outcomes). -/
inductive Reach : ExtensionGroupsState → Prop where
  | empty : Reach emptyState
  | create (nameInput : Option String) (now : Nat) (st : ExtensionGroupsState) :
      Reach st → Reach (createGroup nameInput now st)
  | delete (gid : String) (st : ExtensionGroupsState) :
      Reach st → Reach (deleteGroup gid st)
  | add (gid eid : String) (st : ExtensionGroupsState) :
      Reach st → Reach (addExtension gid eid st)
  | remove (gid eid : String) (st : ExtensionGroupsState) :
      Reach st → Reach (removeExtension gid eid st)
  | dnd (source target : DndNode) (st : ExtensionGroupsState) :
      Reach st → Reach (dragAndDrop source target st)
  | drop (items : List DragItem) (targetGroupId : String) (st : ExtensionGroupsState) :
      Reach st → Reach (handleDropCore items targetGroupId st)
  | toggle (host : Host) (gid : String) (st st2 : ExtensionGroupsState) :
      Reach st → activateGroup host gid st = .ok st2 → Reach st2
  | sync (now : Nat) (st : ExtensionGroupsState) :
      Reach st → Reach (syncSettings now st)

/-- Reachability without the `addExtension` command, and with drag payloads
that are accurate for the state they are dropped on and name each dragged
extension at most once — the payloads a drag over an up-to-date tree
produces. -/
inductive ReachU : ExtensionGroupsState → Prop where
  | empty : ReachU emptyState
  | create (nameInput : Option String) (now : Nat) (st : ExtensionGroupsState) :
      ReachU st → ReachU (createGroup nameInput now st)
  | delete (gid : String) (st : ExtensionGroupsState) :
      ReachU st → ReachU (deleteGroup gid st)
  | remove (gid eid : String) (st : ExtensionGroupsState) :
      ReachU st → ReachU (removeExtension gid eid st)
  | move (extensionId sourceGroupId targetGroupId : String) (st : ExtensionGroupsState) :
      ReachU st → payloadTruthful st ⟨extensionId, sourceGroupId⟩ →
      ReachU (dragAndDrop (.ext extensionId sourceGroupId) (.group targetGroupId) st)
  | reorder (sourceId targetId : String) (st : ExtensionGroupsState) :
      ReachU st → ReachU (dragAndDrop (.group sourceId) (.group targetId) st)
  | drop (items : List DragItem) (targetGroupId : String) (st : ExtensionGroupsState) :
      ReachU st → (∀ item ∈ items, payloadTruthful st item) →
      (items.map (·.extensionId)).Nodup →
      ReachU (handleDropCore items targetGroupId st)
  | toggle (host : Host) (gid : String) (st st2 : ExtensionGroupsState) :
      ReachU st → activateGroup host gid st = .ok st2 → ReachU st2
  | sync (now : Nat) (st : ExtensionGroupsState) :
      ReachU st → ReachU (syncSettings now st)

/-- Reachability in which every group creation happens at a timestamp whose
decimal string differs from every group id already in the store — the regime
in which `Date.now().toString()` does produce fresh ids. -/
inductive ReachF : ExtensionGroupsState → Prop where
  | empty : ReachF emptyState
  | create (nameInput : Option String) (now : Nat) (st : ExtensionGroupsState) :
      ReachF st → toString now ∉ groupIds st → ReachF (createGroup nameInput now st)
  | delete (gid : String) (st : ExtensionGroupsState) :
      ReachF st → ReachF (deleteGroup gid st)
  | add (gid eid : String) (st : ExtensionGroupsState) :
      ReachF st → ReachF (addExtension gid eid st)
  | remove (gid eid : String) (st : ExtensionGroupsState) :
      ReachF st → ReachF (removeExtension gid eid st)
  | dnd (source target : DndNode) (st : ExtensionGroupsState) :
      ReachF st → ReachF (dragAndDrop source target st)
  | drop (items : List DragItem) (targetGroupId : String) (st : ExtensionGroupsState) :
      ReachF st → ReachF (handleDropCore items targetGroupId st)
  | toggle (host : Host) (gid : String) (st st2 : ExtensionGroupsState) :
      ReachF st → activateGroup host gid st = .ok st2 → ReachF st2
  | sync (now : Nat) (st : ExtensionGroupsState) :
      ReachF st → ReachF (syncSettings now st)

/-- Two groups created at timestamps 1 and 2, then the same extension id `e`
added to each through the addExtension command. -/
def twoGroupsSharedMember : ExtensionGroupsState :=
  addExtension "2" "e" (addExtension "1" "e"
    (createGroup (some "B") 2 (createGroup (some "A") 1 emptyState)))

/-- Two groups created within the same millisecond (`Date.now()` returned 0
twice). -/
def dupIdState : ExtensionGroupsState :=
  createGroup (some "B") 0 (createGroup (some "A") 0 emptyState)

/-- One group with two members, for drop experiments. -/
def sampleGroupPair : ExtensionGroupsState := ⟨[⟨"1", "G", ["e1", "e2"], false⟩], none⟩

def groupA : ExtensionGroup := ⟨"A", "Alpha", [], false⟩

def groupB : ExtensionGroup := ⟨"B", "Beta", [], false⟩

def groupC : ExtensionGroup := ⟨"C", "Gamma", [], false⟩

/-- Three groups in display order A, B, C. -/
def threeGroupState : ExtensionGroupsState := ⟨[groupA, groupB, groupC], none⟩

/-- A host on which extension `e1` is installed and inactive but whose
`activate()` request rejects. -/
def failingHost : Host :=
  ⟨fun e => if e == "e1" then some ⟨false, false⟩ else none, fun _ => true⟩

/-- A host on which no queried extension is installed. -/
def missingHost : Host := ⟨fun _ => none, fun _ => true⟩

/-- One inactive group whose sole member is `e1`. -/
def singleMemberState : ExtensionGroupsState := ⟨[⟨"1", "G", ["e1"], false⟩], none⟩

/-- The parse result of a file containing `{"groups": "not-an-array"}`. -/
def notAnArrayDoc : Json := .obj [("groups", .str "not-an-array")]

/-- A non-trivial prior state for the import experiment. -/
def priorState : ExtensionGroupsState := ⟨[⟨"1", "A", ["e"], true⟩], some 5⟩

/-- All three state locations holding the encoding of `priorState` before an
import. -/
def priorEnv : ImportEnv :=
  ⟨encodeState priorState, encodeState priorState, encodeState priorState⟩

theorem modifyGroups_forall2 (gid : String) (f : ExtensionGroup → ExtensionGroup)
    (l : List ExtensionGroup) :
    List.Forall₂ (fun g g' => g' = g ∨ g' = f g) l (modifyGroups gid f l) := by
  induction l with
  | nil => exact List.Forall₂.nil
  | cons g gs ih =>
    unfold modifyGroups
    by_cases h : (g.id == gid) = true
    · simp only [h, if_true]
      exact List.Forall₂.cons (Or.inr rfl) (List.forall₂_same.mpr (fun x _ => Or.inl rfl))
    · simp only [h, if_false]
      exact List.Forall₂.cons (Or.inl rfl) ih

theorem forall2_mem_right {α β : Type} {r : α → β → Prop} {l : List α} {l' : List β}
    (h : List.Forall₂ r l l') : ∀ b ∈ l', ∃ a ∈ l, r a b := by
  induction h with
  | nil => simp
  | cons hr _ ih =>
    intro b hb
    rcases List.mem_cons.mp hb with rfl | hb
    · exact ⟨_, List.mem_cons_self _ _, hr⟩
    · obtain ⟨a, ha, hra⟩ := ih b hb
      exact ⟨a, List.mem_cons_of_mem _ ha, hra⟩

theorem forall2_trans {α : Type} {r : α → α → Prop} (htr : Transitive r) :
    ∀ {l1 l2 l3 : List α}, List.Forall₂ r l1 l2 → List.Forall₂ r l2 l3 →
      List.Forall₂ r l1 l3 := by
  intro l1 l2 l3 h12
  induction h12 generalizing l3 with
  | nil => intro h; cases h; exact List.Forall₂.nil
  | cons hr _ ih =>
    intro h23
    cases h23 with
    | cons hr2 htail2 => exact List.Forall₂.cons (htr hr hr2) (ih htail2)

theorem pairwise_of_forall2_shrink {l l' : List ExtensionGroup}
    (h : List.Forall₂ (fun g g' => g'.extensions ⊆ g.extensions) l l')
    (hp : l.Pairwise MemberDisjoint) : l'.Pairwise MemberDisjoint := by
  induction h with
  | nil => exact List.Pairwise.nil
  | @cons a b la lb hab htail ih =>
    rcases List.pairwise_cons.mp hp with ⟨hhead, htl⟩
    refine List.pairwise_cons.mpr ⟨?_, ih htl⟩
    intro b' hb' e he he'
    obtain ⟨a', ha', hsub⟩ := forall2_mem_right htail b' hb'
    exact hhead a' ha' e (hab he) (hsub he')

theorem crossUnique_modifyGroup_shrink (gid : String)
    (f : ExtensionGroup → ExtensionGroup) (st : ExtensionGroupsState)
    (hf : ∀ g, (f g).extensions ⊆ g.extensions)
    (h : CrossUnique st) : CrossUnique (modifyGroup gid f st) := by
  refine pairwise_of_forall2_shrink ((modifyGroups_forall2 gid f st.groups).imp ?_) h
  intro a b hor
  rcases hor with rfl | rfl
  · exact fun x hx => hx
  · exact hf a

theorem modifyGroups_map_id (gid : String) (f : ExtensionGroup → ExtensionGroup)
    (hf : ∀ g, (f g).id = g.id) (l : List ExtensionGroup) :
    (modifyGroups gid f l).map (·.id) = l.map (·.id) := by
  induction l with
  | nil => rfl
  | cons g gs ih =>
    unfold modifyGroups
    by_cases h : (g.id == gid) = true
    · simp [h, hf]
    · simp [h, ih]

theorem groupIds_modifyGroup (gid : String) (f : ExtensionGroup → ExtensionGroup)
    (st : ExtensionGroupsState) (hf : ∀ g, (f g).id = g.id) :
    groupIds (modifyGroup gid f st) = groupIds st :=
  modifyGroups_map_id gid f hf st.groups

theorem crossUnique_removeFromSource (extensionId sourceGroupId : String)
    (st : ExtensionGroupsState) (h : CrossUnique st) :
    CrossUnique (removeFromSource extensionId sourceGroupId st) :=
  crossUnique_modifyGroup_shrink sourceGroupId _ st
    (fun g x hx => (List.mem_filter.mp hx).1) h

theorem not_mem_after_rm_list (e s : String) :
    ∀ l : List ExtensionGroup, l.Pairwise MemberDisjoint →
    (match l.find? (fun g => g.id == s) with
     | some g => e ∈ g.extensions
     | none => ∀ g ∈ l, e ∉ g.extensions) →
    ∀ g2 ∈ modifyGroups s
      (fun g => { g with extensions := g.extensions.filter (fun i => !(i == e)) }) l,
      e ∉ g2.extensions := by
  intro l
  induction l with
  | nil => intro _ _ g2 hg2; simp [modifyGroups] at hg2
  | cons g gs ih =>
    intro hpw ht g2 hg2
    rcases List.pairwise_cons.mp hpw with ⟨hhead, htail⟩
    by_cases h : (g.id == s) = true
    · rw [@List.find?_cons_of_pos ExtensionGroup (fun g3 => g3.id == s) g gs h] at ht
      unfold modifyGroups at hg2
      rw [if_pos h] at hg2
      rcases List.mem_cons.mp hg2 with rfl | hg2
      · intro hx
        rcases List.mem_filter.mp hx with ⟨_, hne⟩
        simp at hne
      · exact hhead g2 hg2 e ht
    · rw [@List.find?_cons_of_neg ExtensionGroup (fun g3 => g3.id == s) g gs h] at ht
      unfold modifyGroups at hg2
      rw [if_neg h] at hg2
      cases hf : gs.find? (fun g3 => g3.id == s) with
      | some g0 =>
        rw [hf] at ht
        rcases List.mem_cons.mp hg2 with rfl | hg2
        · intro hx
          exact hhead g0 (List.mem_of_find?_eq_some hf) e hx ht
        · exact ih htail (by rw [hf]; exact ht) g2 hg2
      | none =>
        rw [hf] at ht
        rcases List.mem_cons.mp hg2 with rfl | hg2
        · exact ht g2 (List.mem_cons_self _ _)
        · refine ih htail (by rw [hf]; intro g3 hg3; exact ht g3 (List.mem_cons_of_mem _ hg3)) g2 hg2

theorem not_mem_after_removeFromSource (e s : String) (st : ExtensionGroupsState)
    (hcu : CrossUnique st) (ht : payloadTruthful st ⟨e, s⟩) :
    ∀ g2 ∈ (removeFromSource e s st).groups, e ∉ g2.extensions :=
  not_mem_after_rm_list e s st.groups hcu ht

theorem crossUnique_add_list (tgid e : String) :
    ∀ l : List ExtensionGroup, l.Pairwise MemberDisjoint →
    (∀ g ∈ l, e ∉ g.extensions) →
    (modifyGroups tgid
      (fun g =>
        if g.extensions.contains e then g
        else { g with extensions := g.extensions ++ [e] }) l).Pairwise MemberDisjoint := by
  intro l
  induction l with
  | nil => intro _ _; exact List.Pairwise.nil
  | cons g gs ih =>
    intro hpw hno
    rcases List.pairwise_cons.mp hpw with ⟨hhead, htail⟩
    unfold modifyGroups
    by_cases h : (g.id == tgid) = true
    · rw [if_pos h]
      refine List.pairwise_cons.mpr ⟨?_, htail⟩
      intro b hb x hx
      by_cases hc : g.extensions.contains e = true
      · rw [if_pos hc] at hx
        exact hhead b hb x hx
      · rw [if_neg hc] at hx
        simp only at hx
        rcases List.mem_append.mp hx with hx | hx
        · exact hhead b hb x hx
        · rw [List.mem_singleton.mp hx]
          exact hno b (List.mem_cons_of_mem _ hb)
    · rw [if_neg h]
      refine List.pairwise_cons.mpr
        ⟨?_, ih htail (fun g2 hg2 => hno g2 (List.mem_cons_of_mem _ hg2))⟩
      intro b2 hb2 x hx
      obtain ⟨b, hb, hor⟩ := forall2_mem_right (modifyGroups_forall2 tgid _ gs) b2 hb2
      rcases hor with h1 | h1
      · rw [h1]
        exact hhead b hb x hx
      · rw [h1]
        by_cases hc : b.extensions.contains e = true
        · rw [if_pos hc]
          exact hhead b hb x hx
        · rw [if_neg hc]
          simp only
          intro hmem
          rcases List.mem_append.mp hmem with hmem | hmem
          · exact hhead b hb x hx hmem
          · rw [List.mem_singleton.mp hmem] at hx
            exact hno g (List.mem_cons_self _ _) hx

theorem crossUnique_addToTarget (tgid e : String) (st : ExtensionGroupsState)
    (hcu : CrossUnique st) (hno : ∀ g ∈ st.groups, e ∉ g.extensions) :
    CrossUnique (addToTarget tgid e st) :=
  crossUnique_add_list tgid e st.groups hcu hno

theorem crossUnique_dropStep (tgid : String) (st : ExtensionGroupsState)
    (item : DragItem) (hcu : CrossUnique st) (ht : payloadTruthful st item) :
    CrossUnique (dropStep tgid st item) := by
  obtain ⟨e, s⟩ := item
  unfold dropStep
  by_cases h : (tgid == "__uncategorized__") = true
  · rw [if_pos h]
    exact crossUnique_removeFromSource e s st hcu
  · rw [if_neg h]
    exact crossUnique_addToTarget tgid e _
      (crossUnique_removeFromSource e s st hcu)
      (not_mem_after_removeFromSource e s st hcu ht)

/-- Positional correspondence between two group lists: equal ids and, for the
one extension id `e`, identical membership. -/
def SameIdsMemIff (e : String) (l l2 : List ExtensionGroup) : Prop :=
  List.Forall₂ (fun g g2 => g2.id = g.id ∧ (e ∈ g2.extensions ↔ e ∈ g.extensions)) l l2

theorem sameIdsMemIff_trans {e : String} {l1 l2 l3 : List ExtensionGroup}
    (h12 : SameIdsMemIff e l1 l2) (h23 : SameIdsMemIff e l2 l3) :
    SameIdsMemIff e l1 l3 := by
  refine forall2_trans ?_ h12 h23
  intro a b c hab hbc
  exact ⟨hbc.1.trans hab.1, hbc.2.trans hab.2⟩

theorem sameIdsMemIff_modify (gid : String) (f : ExtensionGroup → ExtensionGroup)
    (e : String) (l : List ExtensionGroup)
    (hf_id : ∀ g, (f g).id = g.id)
    (hf_mem : ∀ g, e ∈ (f g).extensions ↔ e ∈ g.extensions) :
    SameIdsMemIff e l (modifyGroups gid f l) := by
  refine (modifyGroups_forall2 gid f l).imp ?_
  intro a b hor
  rcases hor with h1 | h1
  · rw [h1]; exact ⟨rfl, Iff.rfl⟩
  · rw [h1]; exact ⟨hf_id a, hf_mem a⟩

theorem sameIdsMemIff_refl (e : String) (l : List ExtensionGroup) :
    SameIdsMemIff e l l :=
  List.forall₂_same.mpr (fun _ _ => ⟨rfl, Iff.rfl⟩)

theorem sameIdsMemIff_dropStep (tgid : String) (st : ExtensionGroupsState)
    (item : DragItem) (e : String) (hne : e ≠ item.extensionId) :
    SameIdsMemIff e st.groups (dropStep tgid st item).groups := by
  have hrm : SameIdsMemIff e st.groups
      (removeFromSource item.extensionId item.groupId st).groups := by
    refine sameIdsMemIff_modify _ _ _ _ (fun g => rfl) ?_
    intro g
    simp only
    constructor
    · intro hx; exact (List.mem_filter.mp hx).1
    · intro hx
      refine List.mem_filter.mpr ⟨hx, ?_⟩
      simpa using hne
  have hadd : ∀ st2 : ExtensionGroupsState, SameIdsMemIff e st2.groups
      (addToTarget tgid item.extensionId st2).groups := by
    intro st2
    refine sameIdsMemIff_modify _ _ _ _ ?_ ?_
    · intro g
      by_cases hc : g.extensions.contains item.extensionId = true
      · rw [if_pos hc]
      · rw [if_neg hc]
    intro g
    by_cases hc : g.extensions.contains item.extensionId = true
    · rw [if_pos hc]
    · rw [if_neg hc]
      simp only [List.mem_append, List.mem_singleton]
      constructor
      · intro hx
        rcases hx with hx | hx
        · exact hx
        · exact absurd hx hne
      · intro hx; exact Or.inl hx
  unfold dropStep
  by_cases h : (tgid == "__uncategorized__") = true
  · rw [if_pos h]; exact hrm
  · rw [if_neg h]
    exact sameIdsMemIff_trans hrm (hadd _)

theorem find?_of_sameIds {P : ExtensionGroup → ExtensionGroup → Prop}
    {l l2 : List ExtensionGroup}
    (h : List.Forall₂ (fun g g2 => g2.id = g.id ∧ P g g2) l l2) (t : String) :
    (l.find? (fun g => g.id == t) = none ∧ l2.find? (fun g => g.id == t) = none) ∨
    (∃ g g2, l.find? (fun g3 => g3.id == t) = some g ∧
      l2.find? (fun g3 => g3.id == t) = some g2 ∧ g2.id = g.id ∧ P g g2) := by
  induction h with
  | nil => left; simp
  | @cons a b la lb hab htail ih =>
    by_cases hh : (a.id == t) = true
    · right
      have hb : (b.id == t) = true := by rw [hab.1]; exact hh
      exact ⟨a, b, @List.find?_cons_of_pos ExtensionGroup (fun g3 => g3.id == t) a la hh,
        @List.find?_cons_of_pos ExtensionGroup (fun g3 => g3.id == t) b lb hb,
        hab.1, hab.2⟩
    · have hb : ¬ (b.id == t) = true := by rw [hab.1]; exact hh
      rw [@List.find?_cons_of_neg ExtensionGroup (fun g3 => g3.id == t) a la hh,
        @List.find?_cons_of_neg ExtensionGroup (fun g3 => g3.id == t) b lb hb]
      exact ih

theorem payloadTruthful_transfer {st st2 : ExtensionGroupsState} {item : DragItem}
    (h : SameIdsMemIff item.extensionId st.groups st2.groups)
    (ht : payloadTruthful st item) : payloadTruthful st2 item := by
  unfold payloadTruthful at ht ⊢
  rcases find?_of_sameIds h item.groupId with ⟨h1, h2⟩ | ⟨g, g2, h1, h2, _, hmem⟩
  · rw [h2]
    rw [h1] at ht
    have ht2 : ∀ g ∈ st.groups, item.extensionId ∉ g.extensions := ht
    intro g2 hg2
    obtain ⟨g, hg, _, hiff⟩ := forall2_mem_right h g2 hg2
    exact fun hx => ht2 g hg (hiff.mp hx)
  · rw [h2]
    rw [h1] at ht
    exact hmem.mpr (show item.extensionId ∈ g.extensions from ht)

theorem crossUnique_handleDropCore (tgid : String) :
    ∀ (items : List DragItem) (st : ExtensionGroupsState), CrossUnique st →
    (∀ item ∈ items, payloadTruthful st item) →
    (items.map (·.extensionId)).Nodup →
    CrossUnique (handleDropCore items tgid st) := by
  intro items
  induction items with
  | nil => intro st h _ _; exact h
  | cons item rest ih =>
    intro st hcu ht hnd
    show CrossUnique (List.foldl (dropStep tgid) (dropStep tgid st item) rest)
    rw [List.map_cons] at hnd
    rcases List.nodup_cons.mp hnd with ⟨hhd, htl⟩
    refine ih (dropStep tgid st item)
      (crossUnique_dropStep tgid st item hcu (ht item (List.mem_cons_self _ _))) ?_ htl
    intro it2 hit2
    have hne : it2.extensionId ≠ item.extensionId := by
      intro hcontra
      exact hhd (by rw [← hcontra]; exact List.mem_map.mpr ⟨it2, hit2, rfl⟩)
    exact payloadTruthful_transfer (sameIdsMemIff_dropStep tgid st item _ hne)
      (ht it2 (List.mem_cons_of_mem _ hit2))

theorem memberDisjoint_symm : ∀ {x y : ExtensionGroup},
    MemberDisjoint x y → MemberDisjoint y x :=
  fun h e hey hex => h e hex hey

theorem crossUnique_createGroup (nameInput : Option String) (now : Nat)
    (st : ExtensionGroupsState) (h : CrossUnique st) :
    CrossUnique (createGroup nameInput now st) := by
  unfold createGroup
  split
  · exact h
  · split
    · exact h
    · refine List.pairwise_append.mpr ⟨h, List.pairwise_singleton _ _, ?_⟩
      intro a _ b hb e _
      rw [List.mem_singleton.mp hb]
      simp

theorem crossUnique_deleteGroup (gid : String) (st : ExtensionGroupsState)
    (h : CrossUnique st) : CrossUnique (deleteGroup gid st) :=
  List.Pairwise.sublist (List.filter_sublist st.groups) h

theorem crossUnique_removeExtension (gid eid : String) (st : ExtensionGroupsState)
    (h : CrossUnique st) : CrossUnique (removeExtension gid eid st) :=
  crossUnique_modifyGroup_shrink gid _ st
    (fun g x hx => (List.mem_filter.mp hx).1) h

theorem activateGroup_ok_cases (host : Host) (gid : String)
    (st st2 : ExtensionGroupsState)
    (h : activateGroup host gid st = .ok st2) :
    st2 = st ∨ st2 = modifyGroup gid (fun g => { g with isActive := !g.isActive }) st := by
  unfold activateGroup at h
  split at h
  · left; exact (Except.ok.inj h).symm
  · split at h
    · exact Except.noConfusion h
    · right; exact (Except.ok.inj h).symm

theorem crossUnique_toggle (host : Host) (gid : String)
    (st st2 : ExtensionGroupsState)
    (hok : activateGroup host gid st = .ok st2)
    (h : CrossUnique st) : CrossUnique st2 := by
  rcases activateGroup_ok_cases host gid st st2 hok with rfl | h2
  · exact h
  · rw [h2]
    exact crossUnique_modifyGroup_shrink gid _ st (fun g x hx => hx) h

theorem perm_eraseIdx_cons {α : Type} (l : List α) (i : Nat) (h : i < l.length) :
    l.Perm (l.get ⟨i, h⟩ :: l.eraseIdx i) := by
  induction l generalizing i with
  | nil => simp at h
  | cons a t ih =>
    cases i with
    | zero => simp [List.eraseIdx]
    | succ n =>
      have h2 : n < t.length := by simpa using h
      have hstep := (ih n h2).cons a
      refine hstep.trans ?_
      show (a :: t.get ⟨n, h2⟩ :: t.eraseIdx n).Perm ((a :: t).get ⟨n + 1, h⟩ :: (a :: t).eraseIdx (n + 1))
      simp only [List.get_eq_getElem, List.getElem_cons_succ, List.eraseIdx_cons_succ]
      exact List.Perm.swap _ _ _

theorem reorderGroups_perm (sourceId targetId : String) (st : ExtensionGroupsState) :
    (reorderGroups sourceId targetId st).groups.Perm st.groups := by
  unfold reorderGroups
  dsimp only
  split
  · exact List.Perm.refl _
  · rename_i moved hm
    split
    · rename_i hlt
      obtain ⟨hsi, hget⟩ := List.getElem?_eq_some_iff.mp hm
      have hlen : (st.groups.eraseIdx
          (List.findIdx (fun g => g.id == sourceId) st.groups)).length
          = st.groups.length - 1 := by
        rw [List.length_eraseIdx, if_pos hsi]
      refine (List.perm_insertIdx _ _ ?_).trans ?_
      · rw [hlen]; omega
      · have h2 := perm_eraseIdx_cons st.groups
          (List.findIdx (fun g => g.id == sourceId) st.groups) hsi
        rw [List.get_eq_getElem, hget] at h2
        exact h2.symm
    · exact List.Perm.refl _

theorem crossUnique_reorderGroups (sourceId targetId : String)
    (st : ExtensionGroupsState) (h : CrossUnique st) :
    CrossUnique (reorderGroups sourceId targetId st) :=
  (List.Perm.pairwise_iff (fun hxy => memberDisjoint_symm hxy)
    (reorderGroups_perm sourceId targetId st)).mpr h

theorem crossUnique_dragAndDrop_move (extensionId sourceGroupId targetGroupId : String)
    (st : ExtensionGroupsState) (hcu : CrossUnique st)
    (ht : payloadTruthful st ⟨extensionId, sourceGroupId⟩) :
    CrossUnique (dragAndDrop (.ext extensionId sourceGroupId) (.group targetGroupId) st) := by
  unfold dragAndDrop
  dsimp only
  split
  · split
    · exact hcu
    · exact crossUnique_addToTarget targetGroupId extensionId _
        (crossUnique_removeFromSource extensionId sourceGroupId st hcu)
        (not_mem_after_removeFromSource extensionId sourceGroupId st hcu ht)
  · exact hcu

theorem crossUnique_syncSettings (now : Nat) (st : ExtensionGroupsState)
    (h : CrossUnique st) : CrossUnique (syncSettings now st) := h

theorem groupIds_removeFromSource (extensionId sourceGroupId : String)
    (st : ExtensionGroupsState) :
    groupIds (removeFromSource extensionId sourceGroupId st) = groupIds st :=
  groupIds_modifyGroup _ _ _ (fun _ => rfl)

theorem groupIds_addToTarget (targetGroupId extensionId : String)
    (st : ExtensionGroupsState) :
    groupIds (addToTarget targetGroupId extensionId st) = groupIds st := by
  refine groupIds_modifyGroup _ _ _ ?_
  intro g
  by_cases hc : g.extensions.contains extensionId = true
  · rw [if_pos hc]
  · rw [if_neg hc]

theorem groupIds_dropStep (targetGroupId : String) (st : ExtensionGroupsState)
    (item : DragItem) :
    groupIds (dropStep targetGroupId st item) = groupIds st := by
  unfold dropStep
  split
  · exact groupIds_removeFromSource _ _ _
  · rw [groupIds_addToTarget, groupIds_removeFromSource]

theorem groupIds_handleDropCore (items : List DragItem) (targetGroupId : String) :
    ∀ st : ExtensionGroupsState,
    groupIds (handleDropCore items targetGroupId st) = groupIds st := by
  induction items with
  | nil => intro st; rfl
  | cons item rest ih =>
    intro st
    show groupIds (handleDropCore rest targetGroupId (dropStep targetGroupId st item))
      = groupIds st
    rw [ih (dropStep targetGroupId st item), groupIds_dropStep]

theorem groupIds_addExtension (gid eid : String) (st : ExtensionGroupsState) :
    groupIds (addExtension gid eid st) = groupIds st := by
  refine groupIds_modifyGroup _ _ _ ?_
  intro g
  by_cases hc : g.extensions.contains eid = true
  · rw [if_pos hc]
  · rw [if_neg hc]

theorem groupIds_removeExtension (gid eid : String) (st : ExtensionGroupsState) :
    groupIds (removeExtension gid eid st) = groupIds st :=
  groupIds_modifyGroup _ _ _ (fun _ => rfl)

theorem nodupIds_createGroup (nameInput : Option String) (now : Nat)
    (st : ExtensionGroupsState) (hfresh : toString now ∉ groupIds st)
    (h : (groupIds st).Nodup) : (groupIds (createGroup nameInput now st)).Nodup := by
  unfold createGroup
  split
  · exact h
  · split
    · exact h
    · show (groupIds { st with groups := st.groups ++ [⟨toString now, _, [], false⟩] }).Nodup
      unfold groupIds at h ⊢
      simp only [List.map_append, List.map_cons, List.map_nil]
      rw [List.nodup_append]
      refine ⟨h, List.nodup_singleton _, ?_⟩
      intro a ha hb
      rw [List.mem_singleton.mp hb] at ha
      exact hfresh ha

theorem nodupIds_deleteGroup (gid : String) (st : ExtensionGroupsState)
    (h : (groupIds st).Nodup) : (groupIds (deleteGroup gid st)).Nodup :=
  List.Nodup.sublist (List.Sublist.map _ (List.filter_sublist st.groups)) h

theorem nodupIds_dragAndDrop (source target : DndNode) (st : ExtensionGroupsState)
    (h : (groupIds st).Nodup) : (groupIds (dragAndDrop source target st)).Nodup := by
  cases source with
  | ext extensionId sourceGroupId =>
    cases target with
    | group targetGroupId =>
      unfold dragAndDrop
      dsimp only
      split
      · split
        · exact h
        · rw [groupIds_addToTarget, groupIds_removeFromSource]; exact h
      · exact h
    | ext a b => exact h
  | group sourceGroupId =>
    cases target with
    | group targetGroupId =>
      have hperm := (reorderGroups_perm sourceGroupId targetGroupId st).map (·.id)
      exact (List.Perm.nodup_iff hperm).mpr h
    | ext a b => exact h

theorem nodupIds_toggle (host : Host) (gid : String) (st st2 : ExtensionGroupsState)
    (hok : activateGroup host gid st = .ok st2)
    (h : (groupIds st).Nodup) : (groupIds st2).Nodup := by
  rcases activateGroup_ok_cases host gid st st2 hok with rfl | h2
  · exact h
  · rw [h2]
    rw [groupIds_modifyGroup gid (fun g => { g with isActive := !g.isActive }) st
      (fun _ => rfl)]
    exact h

theorem decodeStrings_map_str (l : List String) :
    decodeStrings (l.map Json.str) = some l := by
  induction l with
  | nil => rfl
  | cons s rest ih => simp [decodeStrings, ih]

theorem decodeGroup_encodeGroup (g : ExtensionGroup) :
    decodeGroup (encodeGroup g) = some g := by
  simp [decodeGroup, encodeGroup, lookupField, decodeStrings_map_str]

theorem decodeGroups_map_encode (l : List ExtensionGroup) :
    decodeGroups (l.map encodeGroup) = some l := by
  induction l with
  | nil => rfl
  | cons g rest ih => simp [decodeGroups, decodeGroup_encodeGroup, ih]

theorem decodeState_encodeState (st : ExtensionGroupsState) :
    decodeState (encodeState st) = some st := by
  cases st with
  | mk groups lastSyncTime =>
    cases lastSyncTime with
    | none => simp [decodeState, encodeState, lookupField, decodeGroups_map_encode]
    | some t => simp [decodeState, encodeState, lookupField, decodeGroups_map_encode]

theorem runGroupToggle_all_missing (host : Host) (b : Bool) (l : List String)
    (h : ∀ e ∈ l, host.getExtension e = none) :
    runGroupToggle host b l = .ok () := by
  induction l with
  | nil => rfl
  | cons e rest ih =>
    unfold runGroupToggle
    rw [h e (List.mem_cons_self _ _)]
    exact ih (fun e2 he2 => h e2 (List.mem_cons_of_mem _ he2))

theorem modifyGroups_not_found (gid : String) (f : ExtensionGroup → ExtensionGroup)
    (l : List ExtensionGroup) (h : gid ∉ l.map (·.id)) :
    modifyGroups gid f l = l := by
  induction l with
  | nil => rfl
  | cons g gs ih =>
    unfold modifyGroups
    rw [List.map_cons] at h
    have hg : ¬ (g.id == gid) = true := by
      intro hc
      apply h
      rw [← beq_iff_eq.mp hc]
      exact List.mem_cons_self _ _
    rw [if_neg hg]
    rw [ih (fun hm => h (List.mem_cons_of_mem _ hm))]

theorem addToTarget_unknown (targetGroupId extensionId : String)
    (st : ExtensionGroupsState) (h : targetGroupId ∉ groupIds st) :
    addToTarget targetGroupId extensionId st = st := by
  unfold addToTarget modifyGroup
  rw [modifyGroups_not_found _ _ _ h]

theorem dropStep_unknown (targetGroupId : String) (st : ExtensionGroupsState)
    (item : DragItem) (h : targetGroupId ∉ groupIds st) :
    dropStep targetGroupId st item =
      removeFromSource item.extensionId item.groupId st := by
  unfold dropStep
  split
  · rfl
  · refine addToTarget_unknown _ _ _ ?_
    rw [groupIds_removeFromSource]
    exact h

theorem shrinkIds_removeFromSource (extensionId sourceGroupId : String)
    (st : ExtensionGroupsState) :
    List.Forall₂ (fun g g2 => g2.id = g.id ∧ g2.extensions ⊆ g.extensions)
      st.groups (removeFromSource extensionId sourceGroupId st).groups := by
  refine (modifyGroups_forall2 sourceGroupId _ st.groups).imp ?_
  intro a b hor
  rcases hor with h1 | h1
  · rw [h1]; exact ⟨rfl, fun x hx => hx⟩
  · rw [h1]; exact ⟨rfl, fun x hx => (List.mem_filter.mp hx).1⟩

theorem shrinkIds_handleDropCore_unknown (targetGroupId : String) :
    ∀ (items : List DragItem) (st : ExtensionGroupsState),
    targetGroupId ∉ groupIds st →
    List.Forall₂ (fun g g2 => g2.id = g.id ∧ g2.extensions ⊆ g.extensions)
      st.groups (handleDropCore items targetGroupId st).groups := by
  intro items
  induction items with
  | nil =>
    intro st _
    exact List.forall₂_same.mpr (fun _ _ => ⟨rfl, fun x hx => hx⟩)
  | cons item rest ih =>
    intro st hunk
    show List.Forall₂ _ st.groups
      (handleDropCore rest targetGroupId (dropStep targetGroupId st item)).groups
    rw [dropStep_unknown targetGroupId st item hunk]
    refine forall2_trans ?_ (shrinkIds_removeFromSource _ _ st)
      (ih _ (by rw [groupIds_removeFromSource]; exact hunk))
    intro a b c hab hbc
    exact ⟨hbc.1.trans hab.1, fun x hx => hab.2 (hbc.2 hx)⟩

theorem not_mem_with_id_transfer {l l2 : List ExtensionGroup} {s e : String}
    (h : List.Forall₂ (fun g g2 => g2.id = g.id ∧ g2.extensions ⊆ g.extensions) l l2)
    (hl : ∀ g ∈ l, g.id = s → e ∉ g.extensions) :
    ∀ g2 ∈ l2, g2.id = s → e ∉ g2.extensions := by
  intro g2 hg2 hid hmem
  obtain ⟨g, hg, hgid, hsub⟩ := forall2_mem_right h g2 hg2
  exact hl g hg (hgid ▸ hid) (hsub hmem)

theorem removed_from_id_nodup (e s : String) :
    ∀ l : List ExtensionGroup, (l.map (·.id)).Nodup →
    ∀ g2 ∈ modifyGroups s
      (fun g => { g with extensions := g.extensions.filter (fun i => !(i == e)) }) l,
      g2.id = s → e ∉ g2.extensions := by
  intro l
  induction l with
  | nil => intro _ g2 hg2; simp [modifyGroups] at hg2
  | cons g gs ih =>
    intro hnd g2 hg2 hid
    rw [List.map_cons] at hnd
    rcases List.nodup_cons.mp hnd with ⟨hhd, htl⟩
    unfold modifyGroups at hg2
    by_cases h : (g.id == s) = true
    · rw [if_pos h] at hg2
      rcases List.mem_cons.mp hg2 with rfl | hg2
      · intro hx
        rcases List.mem_filter.mp hx with ⟨_, hne⟩
        simp at hne
      · exfalso
        refine hhd ?_
        rw [beq_iff_eq.mp h, ← hid]
        exact List.mem_map.mpr ⟨g2, hg2, rfl⟩
    · rw [if_neg h] at hg2
      rcases List.mem_cons.mp hg2 with rfl | hg2
      · exfalso
        exact h (beq_iff_eq.mpr hid)
      · exact ih htl g2 hg2 hid

theorem modifyGroups_cons_pos (gid : String) (f : ExtensionGroup → ExtensionGroup)
    (g : ExtensionGroup) (gs : List ExtensionGroup) (h : (g.id == gid) = true) :
    modifyGroups gid f (g :: gs) = f g :: gs := by
  simp only [modifyGroups]
  rw [if_pos h]

theorem modifyGroups_cons_neg (gid : String) (f : ExtensionGroup → ExtensionGroup)
    (g : ExtensionGroup) (gs : List ExtensionGroup) (h : ¬ (g.id == gid) = true) :
    modifyGroups gid f (g :: gs) = g :: modifyGroups gid f gs := by
  simp only [modifyGroups]
  rw [if_neg h]

theorem modifyGroups_modifyGroups (gid : String)
    (f h : ExtensionGroup → ExtensionGroup) (hh_id : ∀ g, (h g).id = g.id) :
    ∀ l : List ExtensionGroup,
    modifyGroups gid f (modifyGroups gid h l) = modifyGroups gid (fun g => f (h g)) l := by
  intro l
  induction l with
  | nil => rfl
  | cons g gs ih =>
    by_cases hc : (g.id == gid) = true
    · rw [modifyGroups_cons_pos gid h g gs hc,
        modifyGroups_cons_pos gid f (h g) gs (by rw [hh_id g]; exact hc),
        modifyGroups_cons_pos gid (fun g => f (h g)) g gs hc]
    · rw [modifyGroups_cons_neg gid h g gs hc,
        modifyGroups_cons_neg gid f g (modifyGroups gid h gs) hc,
        modifyGroups_cons_neg gid (fun g => f (h g)) g gs hc, ih]

theorem contains_filter_out (l : List String) (e : String) :
    (l.filter (fun i => !(i == e))).contains e = false := by
  by_cases hc : (l.filter (fun i => !(i == e))).contains e = true
  · exfalso
    have hm : e ∈ l.filter (fun i => !(i == e)) := List.elem_iff.mp hc
    rcases List.mem_filter.mp hm with ⟨_, hb⟩
    simp at hb
  · exact Bool.eq_false_iff.mpr hc

theorem mem_after_add_list (gid eid : String) :
    ∀ l : List ExtensionGroup, gid ∈ l.map (·.id) →
    ∃ g ∈ modifyGroups gid
      (fun g =>
        if g.extensions.contains eid then g
        else { g with extensions := g.extensions ++ [eid] }) l,
      eid ∈ g.extensions := by
  intro l
  induction l with
  | nil => intro h; simp at h
  | cons g gs ih =>
    intro h
    by_cases hc : (g.id == gid) = true
    · rw [modifyGroups_cons_pos gid _ g gs hc]
      by_cases hm : g.extensions.contains eid = true
      · exact ⟨g, by rw [if_pos hm]; exact List.mem_cons_self _ _, List.elem_iff.mp hm⟩
      · refine ⟨{ g with extensions := g.extensions ++ [eid] }, ?_, by simp⟩
        rw [if_neg hm]
        exact List.mem_cons_self _ _
    · rw [modifyGroups_cons_neg gid _ g gs hc]
      rw [List.map_cons] at h
      rcases List.mem_cons.mp h with h1 | h1
      · exact absurd (beq_iff_eq.mpr h1.symm) hc
      · obtain ⟨g2, hg2, hmem⟩ := ih h1
        exact ⟨g2, List.mem_cons_of_mem _ hg2, hmem⟩

theorem mem_after_addExtension (gid eid : String) (st : ExtensionGroupsState)
    (h : gid ∈ groupIds st) :
    ∃ g ∈ (addExtension gid eid st).groups, eid ∈ g.extensions :=
  mem_after_add_list gid eid st.groups h

theorem groupIds_mem_iff_findIdx (t : String) (st : ExtensionGroupsState) :
    t ∈ groupIds st ↔ st.groups.findIdx (fun g => g.id == t) < st.groups.length := by
  rw [List.findIdx_lt_length]
  unfold groupIds
  constructor
  · intro h
    obtain ⟨g, hg, hid⟩ := List.mem_map.mp h
    exact ⟨g, hg, beq_iff_eq.mpr hid⟩
  · intro h
    obtain ⟨g, hg, hid⟩ := h
    exact List.mem_map.mpr ⟨g, hg, beq_iff_eq.mp hid⟩

theorem modifyGroups_congr (gid : String) (f1 f2 : ExtensionGroup → ExtensionGroup)
    (h : ∀ g, f1 g = f2 g) :
    ∀ l : List ExtensionGroup, modifyGroups gid f1 l = modifyGroups gid f2 l := by
  intro l
  induction l with
  | nil => rfl
  | cons g gs ih =>
    unfold modifyGroups
    rw [h g, ih]

/-- C1 counterexample. The claimed invariant — every extension identifier in at
most one group's members, for every state reachable by the public operations —
fails: after two `createGroup` calls, picking the same extension for both
groups through `extension-groups.addExtension` lists `e` in both groups,
because the command only checks the target group's own members
(`src/extension.ts:104-108`). -/
theorem addExtension_breaks_cross_uniqueness :
    Reach twoGroupsSharedMember ∧ ¬ CrossUnique twoGroupsSharedMember :=
  ⟨Reach.add "2" "e" _ (Reach.add "1" "e" _ (Reach.create (some "B") 2 _
    (Reach.create (some "A") 1 _ Reach.empty))), by decide⟩

/-- C1 amended. Cross-group uniqueness does hold for every state reachable from
the empty state by the public operations other than add-extension-to-group,
provided drag payloads are accurate for the state they are dropped on (the id
each entry records is the group the tree shows the leaf under) and name each
dragged extension at most once. -/
theorem crossUnique_of_reachU : ∀ st : ExtensionGroupsState, ReachU st → CrossUnique st := by
  intro st h
  induction h with
  | empty => exact List.Pairwise.nil
  | create nameInput now st _ ih => exact crossUnique_createGroup nameInput now st ih
  | delete gid st _ ih => exact crossUnique_deleteGroup gid st ih
  | remove gid eid st _ ih => exact crossUnique_removeExtension gid eid st ih
  | move extensionId sourceGroupId targetGroupId st _ htr ih =>
    exact crossUnique_dragAndDrop_move extensionId sourceGroupId targetGroupId st ih htr
  | reorder sourceId targetId st _ ih => exact crossUnique_reorderGroups sourceId targetId st ih
  | drop items targetGroupId st _ htr hnd ih =>
    exact crossUnique_handleDropCore targetGroupId items st ih htr hnd
  | toggle host gid st st2 _ hok ih => exact crossUnique_toggle host gid st st2 hok ih
  | sync now st _ ih => exact ih

/-- Witness for the amended C1 theorem: create a group at timestamp 1, then
drop the uncategorized extension `e` onto it; the resulting state is reachable
in the restricted relation and cross-unique. -/
theorem crossUnique_of_reachU_witness :
    ReachU (handleDropCore [⟨"e", "__uncategorized__"⟩] "1"
      (createGroup (some "A") 1 emptyState)) ∧
    CrossUnique (handleDropCore [⟨"e", "__uncategorized__"⟩] "1"
      (createGroup (some "A") 1 emptyState)) := by
  have hr : ReachU (handleDropCore [⟨"e", "__uncategorized__"⟩] "1"
      (createGroup (some "A") 1 emptyState)) :=
    ReachU.drop [⟨"e", "__uncategorized__"⟩] "1" _
      (ReachU.create (some "A") 1 _ ReachU.empty) (by decide) (by decide)
  exact ⟨hr, crossUnique_of_reachU _ hr⟩

/-- C7 counterexample. `createGroup` assigns `Date.now().toString()` with no
uniqueness check (`src/extension.ts:55`), so two creations in the same
millisecond give both groups the id `"0"`: group-id uniqueness fails on a
reachable state. -/
theorem createGroup_duplicate_ids_reachable :
    Reach dupIdState ∧ ¬ (groupIds dupIdState).Nodup :=
  ⟨Reach.create (some "B") 0 _ (Reach.create (some "A") 0 _ Reach.empty), by decide⟩

/-- C7 amended. Group ids are pairwise unique in every state reachable from the
empty state provided each group creation happens at a timestamp whose decimal
string differs from every id already in the store — the regime the code relies
on; nothing in the code itself enforces it. -/
theorem groupIds_nodup_of_reachF :
    ∀ st : ExtensionGroupsState, ReachF st → (groupIds st).Nodup := by
  intro st h
  induction h with
  | empty => exact List.Pairwise.nil
  | create nameInput now st _ hfresh ih => exact nodupIds_createGroup nameInput now st hfresh ih
  | delete gid st _ ih => exact nodupIds_deleteGroup gid st ih
  | add gid eid st _ ih => rw [groupIds_addExtension]; exact ih
  | remove gid eid st _ ih => rw [groupIds_removeExtension]; exact ih
  | dnd source target st _ ih => exact nodupIds_dragAndDrop source target st ih
  | drop items targetGroupId st _ ih => rw [groupIds_handleDropCore]; exact ih
  | toggle host gid st st2 _ hok ih => exact nodupIds_toggle host gid st st2 hok ih
  | sync now st _ ih => exact ih

/-- Witness for the amended C7 theorem at two creations with distinct
timestamps 1 and 2. -/
theorem groupIds_nodup_of_reachF_witness :
    ReachF (createGroup (some "B") 2 (createGroup (some "A") 1 emptyState)) ∧
    (groupIds (createGroup (some "B") 2 (createGroup (some "A") 1 emptyState))).Nodup := by
  have hr : ReachF (createGroup (some "B") 2 (createGroup (some "A") 1 emptyState)) :=
    ReachF.create (some "B") 2 _
      (ReachF.create (some "A") 1 _ ReachF.empty (by decide)) (by decide)
  exact ⟨hr, groupIds_nodup_of_reachF _ hr⟩

/-- C9. Serialization round-trip: for every reachable state, the JSON tree
written by `syncSettings` (`JSON.stringify(state, null, 2)`) reads back as an
equal state. `decodeState` is the typed reading of the parsed object that the
consuming code's field accesses perform. The proof does not need reachability:
the round-trip holds for every well-formed state. -/
theorem serialize_roundtrip_of_reach :
    ∀ st : ExtensionGroupsState, Reach st → decodeState (encodeState st) = some st :=
  fun st _ => decodeState_encodeState st

/-- Witness for C9 at a state built by create and sync. -/
theorem serialize_roundtrip_of_reach_witness :
    Reach (syncSettings 5 (createGroup (some "A") 1 emptyState)) ∧
    decodeState (encodeState (syncSettings 5 (createGroup (some "A") 1 emptyState))) =
      some (syncSettings 5 (createGroup (some "A") 1 emptyState)) := by
  have hr : Reach (syncSettings 5 (createGroup (some "A") 1 emptyState)) :=
    Reach.sync 5 _ (Reach.create (some "A") 1 _ Reach.empty)
  exact ⟨hr, serialize_roundtrip_of_reach _ hr⟩

/-- C6 counterexample. The claim says createGroup fails with ValidationError
exactly when the name is empty or whitespace-only. The command has no
validation and no error path: the guard is JavaScript truthiness
(`if (groupName)`, `src/extension.ts:53`), so the whitespace-only name `" "`
is accepted and a group is appended. -/
theorem createGroup_accepts_whitespace_name :
    createGroup (some " ") 0 emptyState ≠ emptyState ∧
    (createGroup (some " ") 0 emptyState).groups = [⟨"0", " ", [], false⟩] := by
  decide

/-- C6 amended. `createGroup` never raises an error: it is a no-op when the
input box is dismissed or the name is the empty string (falsy), and for every
other name — whitespace-only names included — it appends a new group with
empty members, `isActive = false` and id `Date.now().toString()`. -/
theorem createGroup_semantics :
    ∀ (now : Nat) (st : ExtensionGroupsState),
    createGroup none now st = st ∧
    createGroup (some "") now st = st ∧
    ∀ name2 : String, name2 ≠ "" →
      createGroup (some name2) now st =
        { st with groups := st.groups ++ [⟨toString now, name2, [], false⟩] } := by
  intro now st
  refine ⟨rfl, rfl, ?_⟩
  intro name2 hname
  unfold createGroup
  dsimp only
  rw [if_neg (by simpa using hname)]

/-- Witness for the amended C6 theorem, with the whitespace-only name. -/
theorem createGroup_semantics_witness :
    createGroup none 0 emptyState = emptyState ∧
    createGroup (some "") 0 emptyState = emptyState ∧
    createGroup (some " ") 0 emptyState =
      { emptyState with groups := emptyState.groups ++ [⟨toString 0, " ", [], false⟩] } := by
  obtain ⟨h1, h2, h3⟩ := createGroup_semantics 0 emptyState
  exact ⟨h1, h2, h3 " " (by decide)⟩

/-- C2 counterexample. Importing a file whose content is the valid JSON
`{"groups": "not-an-array"}` does not fail: `JSON.parse` succeeds and the
parsed object is assigned and persisted with no shape check
(`src/extension.ts:269-272`). The outcome is the success notification, the
persisted value no longer reads back as the prior state, and the provider's
in-memory state is reset to `{ groups: [] }` by `updateProviderState` — so
neither the in-memory nor the persisted state is left as it was, and no
FormatError is reported. -/
theorem importSettings_accepts_nonarray_groups :
    (importSettings (some (.ok notAnArrayDoc)) priorEnv).1 = .imported ∧
    decodeState priorEnv.persisted = some priorState ∧
    decodeState (importSettings (some (.ok notAnArrayDoc)) priorEnv).2.persisted = none ∧
    (importSettings (some (.ok notAnArrayDoc)) priorEnv).2.providerState =
      encodeState emptyState := by
  refine ⟨rfl, by decide, rfl, rfl⟩

/-- C2 amended. Importing a file whose content parses as JSON always succeeds:
the parsed value replaces the `state` variable and the persisted value as is,
and the provider's state becomes the parsed value sanitized — reset to the
empty state whenever the `groups` field is not an array. Only a missing file
(informational path) or a file whose read/parse throws leaves all state
unchanged. -/
theorem importSettings_semantics :
    ∀ (j : Json) (env : ImportEnv),
    importSettings (some (.ok j)) env = (.imported, ⟨j, j, sanitizeState j⟩) ∧
    importSettings (some (.error ())) env = (.failed, env) ∧
    importSettings none env = (.nothingToImport, env) ∧
    (groupsFieldIsArray j = false → sanitizeState j = encodeState emptyState) := by
  intro j env
  refine ⟨rfl, rfl, rfl, ?_⟩
  intro h
  unfold sanitizeState
  rw [h]
  simp

/-- Witness for the amended C2 theorem at the not-an-array document. -/
theorem importSettings_semantics_witness :
    importSettings (some (.ok notAnArrayDoc)) priorEnv =
      (.imported, ⟨notAnArrayDoc, notAnArrayDoc, sanitizeState notAnArrayDoc⟩) ∧
    sanitizeState notAnArrayDoc = encodeState emptyState := by
  obtain ⟨h1, _, _, h4⟩ := importSettings_semantics notAnArrayDoc priorEnv
  exact ⟨h1, h4 rfl⟩

/-- C3 counterexample. A drop of `e1` onto its own group (members
`["e1", "e2"]`) does not leave the state unchanged: `handleDrop` first filters
`e1` out and then re-appends it (`src/extension.ts:473-486`), so the member
order becomes `["e2", "e1"]`. -/
theorem handleDrop_same_group_not_noop :
    handleDrop (some (.ok [⟨"e1", "1"⟩])) (some (.group "1")) sampleGroupPair =
      some ⟨[⟨"1", "G", ["e2", "e1"], false⟩], none⟩ ∧
    handleDrop (some (.ok [⟨"e1", "1"⟩])) (some (.group "1")) sampleGroupPair ≠
      some sampleGroupPair := by
  decide

/-- C3 amended. A same-group drop raises no error and keeps the member set,
but moves the dragged extension to the end of the group's member list (removal
followed by re-append); the legacy `extension-groups.dragAndDrop` command's
move branch, by contrast, is a strict no-op when source and target group ids
are equal. -/
theorem handleDrop_same_group_semantics :
    ∀ (st : ExtensionGroupsState) (gid eid : String),
    gid ≠ "__uncategorized__" → gid ≠ "" →
    (handleDrop (some (.ok [⟨eid, gid⟩])) (some (.group gid)) st =
      some (modifyGroup gid
        (fun g => { g with extensions := g.extensions.filter (fun i => !(i == eid)) ++ [eid] })
        st)) ∧
    dragAndDrop (.ext eid gid) (.group gid) st = st := by
  intro st gid eid hng hne
  constructor
  · show (if (gid == "") = true then none
      else some (handleDropCore [⟨eid, gid⟩] gid st)) = _
    rw [if_neg (by simpa using hne)]
    congr 1
    show dropStep gid st ⟨eid, gid⟩ = _
    unfold dropStep
    rw [if_neg (by simpa using hng)]
    show addToTarget gid eid (removeFromSource eid gid st) = _
    unfold addToTarget removeFromSource modifyGroup
    simp only
    rw [modifyGroups_modifyGroups gid
      (fun g =>
        if g.extensions.contains eid then g
        else { g with extensions := g.extensions ++ [eid] })
      (fun g => { g with extensions := g.extensions.filter (fun i => !(i == eid)) })
      (fun g => rfl) st.groups]
    congr 1
    refine modifyGroups_congr gid _ _ ?_ st.groups
    intro g
    simp only
    rw [if_neg (by rw [contains_filter_out]; simp)]
  · unfold dragAndDrop
    dsimp only
    split
    · rename_i sourceGroup targetGroup h1 h2
      have e1 : sourceGroup.id = gid := beq_iff_eq.mp
        (@List.find?_some ExtensionGroup (fun g => g.id == gid) sourceGroup st.groups h1)
      have e2 : targetGroup.id = gid := beq_iff_eq.mp
        (@List.find?_some ExtensionGroup (fun g => g.id == gid) targetGroup st.groups h2)
      rw [if_pos (beq_iff_eq.mpr (e1.trans e2.symm))]
    · rfl

/-- Witness for the amended C3 theorem on the concrete two-member group. -/
theorem handleDrop_same_group_semantics_witness :
    (handleDrop (some (.ok [⟨"e1", "1"⟩])) (some (.group "1")) sampleGroupPair =
      some (modifyGroup "1"
        (fun g => { g with extensions := g.extensions.filter (fun i => !(i == "e1")) ++ ["e1"] })
        sampleGroupPair)) ∧
    dragAndDrop (.ext "e1" "1") (.group "1") sampleGroupPair = sampleGroupPair :=
  handleDrop_same_group_semantics sampleGroupPair "1" "e1" (by decide) (by decide)

/-- C4 counterexample. The claim describes the relocate as inserting at the
index the target occupies after the removal; the code computes both indices
before splicing (`src/extension.ts:206-211`), which differs whenever the
source precedes the target: for groups `[A, B, C]`, `reorder(A, C)` yields
`[B, C, A]`, while the claim's description (modelled by
`relocateAfterRemoval`) yields `[B, A, C]`. -/
theorem reorderGroups_not_relocateAfterRemoval :
    (reorderGroups "A" "C" threeGroupState).groups = [groupB, groupC, groupA] ∧
    (relocateAfterRemoval "A" "C" threeGroupState).groups = [groupB, groupA, groupC] ∧
    reorderGroups "A" "C" threeGroupState ≠ relocateAfterRemoval "A" "C" threeGroupState := by
  decide

/-- C4 amended. `reorderGroups` removes the source group from its position and
reinserts it at the index the target group occupied in the original list,
before the removal; it is a no-op when either id is unknown. -/
theorem reorderGroups_original_index :
    ∀ (sourceId targetId : String) (st : ExtensionGroupsState),
    ((sourceId ∉ groupIds st ∨ targetId ∉ groupIds st) →
      reorderGroups sourceId targetId st = st) ∧
    (∀ moved : ExtensionGroup,
      st.groups[st.groups.findIdx (fun g => g.id == sourceId)]? = some moved →
      targetId ∈ groupIds st →
      (reorderGroups sourceId targetId st).groups =
        (st.groups.eraseIdx (st.groups.findIdx (fun g => g.id == sourceId))).insertIdx
          (st.groups.findIdx (fun g => g.id == targetId)) moved) := by
  intro sourceId targetId st
  constructor
  · intro hor
    unfold reorderGroups
    dsimp only
    split
    · rfl
    · rename_i moved hm
      split
      · rename_i hlt
        exfalso
        rcases hor with h | h
        · obtain ⟨hlt2, _⟩ := List.getElem?_eq_some_iff.mp hm
          exact h ((groupIds_mem_iff_findIdx sourceId st).mpr hlt2)
        · exact h ((groupIds_mem_iff_findIdx targetId st).mpr hlt)
      · rfl
  · intro moved hm hmt
    unfold reorderGroups
    dsimp only
    split
    · rename_i hnone
      rw [hnone] at hm
      cases hm
    · rename_i moved2 hm2
      rw [hm2] at hm
      rw [Option.some.inj hm]
      split
      · rfl
      · rename_i hnlt
        exact absurd ((groupIds_mem_iff_findIdx targetId st).mp hmt) hnlt

/-- Witness for the amended C4 theorem: an unknown target id is a no-op, and
`reorder(A, C)` on `[A, B, C]` inserts A at C's original index 2. -/
theorem reorderGroups_original_index_witness :
    reorderGroups "A" "X" threeGroupState = threeGroupState ∧
    (reorderGroups "A" "C" threeGroupState).groups =
      (threeGroupState.groups.eraseIdx
        (threeGroupState.groups.findIdx (fun g => g.id == "A"))).insertIdx
        (threeGroupState.groups.findIdx (fun g => g.id == "C")) groupA := by
  constructor
  · exact (reorderGroups_original_index "A" "X" threeGroupState).1 (Or.inr (by decide))
  · exact (reorderGroups_original_index "A" "C" threeGroupState).2 groupA
      (by decide) (by decide)

/-- C5 counterexample. The Uncategorized children are not the full set
difference over the host inventory: `getChildren` additionally drops every
inventory id starting with `vscode.` (`src/extension.ts:367-368`). On the
inventory `["vscode.git"]` with no groups, the set-difference reading
(`specUncategorized`) keeps the id while the code shows nothing. -/
theorem uncategorized_excludes_builtins :
    uncategorizedIds ["vscode.git"] emptyState = [] ∧
    specUncategorized ["vscode.git"] emptyState = ["vscode.git"] ∧
    uncategorizedIds ["vscode.git"] emptyState ≠
      specUncategorized ["vscode.git"] emptyState := by
  decide

/-- C5 amended. The Uncategorized children are exactly the inventory ids that
do not start with `vscode.` and are contained in no group's members, in
inventory order; and adding an item to any present group removes it from the
next projection's Uncategorized children. -/
theorem uncategorized_semantics :
    ∀ (inventory : List String) (st : ExtensionGroupsState),
    uncategorizedIds inventory st =
      (inventory.filter (fun i => !(strStartsWith i "vscode."))).filter
        (fun i => !((allGrouped st).contains i)) ∧
    (∀ gid eid : String, gid ∈ groupIds st →
      eid ∉ uncategorizedIds inventory (addExtension gid eid st)) := by
  intro inventory st
  constructor
  · rw [List.filter_filter]
    unfold uncategorizedIds
    congr 1
    funext i
    rw [Bool.and_comm]
  · intro gid eid hmem hin
    rcases List.mem_filter.mp hin with ⟨_, hb⟩
    obtain ⟨g, hg, hgm⟩ := mem_after_addExtension gid eid st hmem
    have hcontains : (allGrouped (addExtension gid eid st)).contains eid = true :=
      List.elem_iff.mpr (List.mem_flatMap.mpr ⟨g, hg, hgm⟩)
    rw [hcontains] at hb
    simp at hb

/-- Witness for the amended C5 theorem: on inventory `["e", "vscode.git"]`, the
characterization holds, and after adding `e` to the group created at timestamp
1 it is no longer Uncategorized. -/
theorem uncategorized_semantics_witness :
    uncategorizedIds ["e", "vscode.git"] (createGroup (some "A") 1 emptyState) =
      ((["e", "vscode.git"] : List String).filter
        (fun i => !(strStartsWith i "vscode."))).filter
        (fun i => !((allGrouped (createGroup (some "A") 1 emptyState)).contains i)) ∧
    "e" ∉ uncategorizedIds ["e", "vscode.git"]
      (addExtension "1" "e" (createGroup (some "A") 1 emptyState)) := by
  obtain ⟨h1, h2⟩ := uncategorized_semantics ["e", "vscode.git"]
    (createGroup (some "A") 1 emptyState)
  exact ⟨h1, h2 "1" "e" (by decide)⟩

/-- C8 counterexample. The member loop of `activateGroup` has no `try`/`catch`
(`src/extension.ts:136-152`): when the host's `activate()` request for member
`e1` rejects, the command handler aborts before reaching the flag flip at line
154, so the flip is skipped — the result is the error outcome and no state is
produced or persisted. -/
theorem activateGroup_aborts_on_host_failure :
    activateGroup failingHost "1" singleMemberState = .error () := by
  rfl

/-- C8 amended. For a group found in the store: the `isActive` flip happens
and is persisted exactly when the member loop completes without a rejected
host request; members the host does not know are skipped and never block the
flip; but a rejected enable/disable request aborts the command with the flag
and state unchanged. -/
theorem activateGroup_flip_semantics :
    ∀ (host : Host) (gid : String) (st : ExtensionGroupsState) (g : ExtensionGroup),
    st.groups.find? (fun g2 => g2.id == gid) = some g →
    ((runGroupToggle host g.isActive g.extensions = .ok () →
      activateGroup host gid st =
        .ok (modifyGroup gid (fun g2 => { g2 with isActive := !g2.isActive }) st)) ∧
    (runGroupToggle host g.isActive g.extensions = .error () →
      activateGroup host gid st = .error ()) ∧
    ((∀ e ∈ g.extensions, host.getExtension e = none) →
      activateGroup host gid st =
        .ok (modifyGroup gid (fun g2 => { g2 with isActive := !g2.isActive }) st))) := by
  intro host gid st g hfind
  have key : ∀ r, runGroupToggle host g.isActive g.extensions = r →
      activateGroup host gid st = (match r with
        | .error e => .error e
        | .ok _ =>
          .ok (modifyGroup gid (fun g2 => { g2 with isActive := !g2.isActive }) st)) := by
    intro r hr
    unfold activateGroup
    rw [hfind]
    dsimp only
    rw [hr]
  exact ⟨fun h => key _ h, fun h => key _ h,
    fun h => key _ (runGroupToggle_all_missing host g.isActive g.extensions h)⟩

/-- Witness for the amended C8 theorem: the failing host aborts with no flip;
a host that knows none of the members completes and flips the flag. -/
theorem activateGroup_flip_semantics_witness :
    activateGroup failingHost "1" singleMemberState = .error () ∧
    activateGroup missingHost "1" singleMemberState =
      .ok (modifyGroup "1" (fun g2 => { g2 with isActive := !g2.isActive })
        singleMemberState) := by
  obtain ⟨_, hf2, _⟩ := activateGroup_flip_semantics failingHost "1" singleMemberState
    ⟨"1", "G", ["e1"], false⟩ (by rfl)
  obtain ⟨_, _, hm3⟩ := activateGroup_flip_semantics missingHost "1" singleMemberState
    ⟨"1", "G", ["e1"], false⟩ (by rfl)
  exact ⟨hf2 (by rfl), hm3 (fun e _ => rfl)⟩

theorem handleDropCore_removes (targetGroupId : String) :
    ∀ (items : List DragItem) (st : ExtensionGroupsState),
    (groupIds st).Nodup → targetGroupId ∉ groupIds st →
    ∀ item ∈ items, ∀ g2 ∈ (handleDropCore items targetGroupId st).groups,
      g2.id = item.groupId → item.extensionId ∉ g2.extensions := by
  intro items
  induction items with
  | nil =>
    intro st _ _ item hitem
    cases hitem
  | cons item rest ih =>
    intro st hnd hunk it hit
    show ∀ g2 ∈ (handleDropCore rest targetGroupId (dropStep targetGroupId st item)).groups,
      g2.id = it.groupId → it.extensionId ∉ g2.extensions
    rw [dropStep_unknown targetGroupId st item hunk]
    have hids : groupIds (removeFromSource item.extensionId item.groupId st) = groupIds st :=
      groupIds_removeFromSource _ _ _
    rcases List.mem_cons.mp hit with rfl | hit2
    · refine not_mem_with_id_transfer
        (shrinkIds_handleDropCore_unknown targetGroupId rest _ (by rw [hids]; exact hunk)) ?_
      exact removed_from_id_nodup it.extensionId it.groupId st.groups hnd
    · exact ih (removeFromSource item.extensionId item.groupId st)
        (by rw [hids]; exact hnd) (by rw [hids]; exact hunk) it hit2

/-- C10 (implicit behaviour, confirmed). When the drop target carries a
non-empty group id that is neither an existing group's id nor the synthetic
`__uncategorized__` id, `handleDrop` does not reject the drop: the item loop
runs and the result is persisted; each dragged extension is removed from its
recorded source group, no group anywhere gains a member, and a dragged
extension that was listed nowhere else and is a non-builtin inventory item
appears among the next projection's Uncategorized children. Stated for stores
with pairwise-distinct group ids. -/
theorem handleDrop_unknown_target_semantics :
    ∀ (items : List DragItem) (targetGroupId : String) (st : ExtensionGroupsState)
      (inventory : List String),
    (groupIds st).Nodup → targetGroupId ∉ groupIds st →
    targetGroupId ≠ "__uncategorized__" → targetGroupId ≠ "" →
    (handleDrop (some (.ok items)) (some (.group targetGroupId)) st =
      some (handleDropCore items targetGroupId st) ∧
    List.Forall₂ (fun g g2 => g2.id = g.id ∧ g2.extensions ⊆ g.extensions)
      st.groups (handleDropCore items targetGroupId st).groups ∧
    (∀ item ∈ items, ∀ g2 ∈ (handleDropCore items targetGroupId st).groups,
      g2.id = item.groupId → item.extensionId ∉ g2.extensions) ∧
    (∀ item ∈ items, item.extensionId ∈ inventory →
      strStartsWith item.extensionId "vscode." = false →
      (∀ g ∈ st.groups, g.id ≠ item.groupId → item.extensionId ∉ g.extensions) →
      item.extensionId ∈ uncategorizedIds inventory (handleDropCore items targetGroupId st))) := by
  intro items targetGroupId st inventory hnd hunk hnu hne
  have hshrink := shrinkIds_handleDropCore_unknown targetGroupId items st hunk
  have hrm := handleDropCore_removes targetGroupId items st hnd hunk
  refine ⟨?_, hshrink, hrm, ?_⟩
  · show (if (targetGroupId == "") = true then none
      else some (handleDropCore items targetGroupId st)) = _
    rw [if_neg (by simpa using hne)]
  · intro item hitem hinv hvs honly
    have hnog : ∀ g2 ∈ (handleDropCore items targetGroupId st).groups,
        item.extensionId ∉ g2.extensions := by
      intro g2 hg2 hmem
      obtain ⟨g, hg, hid, hsub⟩ := forall2_mem_right hshrink g2 hg2
      by_cases hcase : g.id = item.groupId
      · exact hrm item hitem g2 hg2 (hid.trans hcase) hmem
      · exact honly g hg hcase (hsub hmem)
    have hcontains : (allGrouped (handleDropCore items targetGroupId st)).contains
        item.extensionId = false := by
      by_cases hc : (allGrouped (handleDropCore items targetGroupId st)).contains
          item.extensionId = true
      · exfalso
        obtain ⟨g2, hg2, hmem⟩ := List.mem_flatMap.mp (List.elem_iff.mp hc)
        exact hnog g2 hg2 hmem
      · exact Bool.eq_false_iff.mpr hc
    refine List.mem_filter.mpr ⟨hinv, ?_⟩
    rw [hvs, hcontains]
    rfl

/-- Witness for C10: dropping `e1` (sole member of group `1`) onto the unknown
target id `999` is processed, removes `e1` from its group, and leaves it
Uncategorized on the inventory `["e1"]`. -/
theorem handleDrop_unknown_target_semantics_witness :
    handleDrop (some (.ok [⟨"e1", "1"⟩])) (some (.group "999")) singleMemberState =
      some (handleDropCore [⟨"e1", "1"⟩] "999" singleMemberState) ∧
    "e1" ∈ uncategorizedIds ["e1"] (handleDropCore [⟨"e1", "1"⟩] "999" singleMemberState) := by
  obtain ⟨h1, _, _, h4⟩ := handleDrop_unknown_target_semantics [⟨"e1", "1"⟩] "999"
    singleMemberState ["e1"] (by decide) (by decide) (by decide) (by decide)
  exact ⟨h1, h4 ⟨"e1", "1"⟩ (by decide) (by decide) (by decide) (by decide)⟩
